import Mathlib

/-!
Verification development for the fortrandep repository.

The Python sources under fortrandep/ are shallowly embedded here:
source lines are `List Char`, Python exceptions are `Except PErr`,
Python `dict`s are insertion-ordered association lists, and Python's
stable `sorted` is `List.insertionSort` with a total preorder
(both are stable sorts with respect to the same preorder, hence agree).
Every definition is translated from the source file it names.
-/

/-- A single source line, as Python manipulates it (a string). -/
abbrev Line := List Char

/-- Shorthand turning a Lean string literal into a `Line`. -/
def S (s : String) : Line := s.toList

/-- ASCII lowercase of one character, as Python `str.lower` acts on ASCII. -/
def lowChar (c : Char) : Char :=
  if 'A' ≤ c && c ≤ 'Z' then Char.ofNat (c.toNat + 32) else c

/-- Python `line.lower()` (inputs considered are ASCII). -/
def lowerLine (l : Line) : Line := l.map lowChar

/-- Whitespace characters stripped by Python `str.strip` (ASCII subset). -/
def isSpaceCh (c : Char) : Bool :=
  c == ' ' || c == '\t' || c == '\n' || c == '\r' || c == '\x0b' || c == '\x0c'

/-- Python `str.lstrip()`. -/
def lstrip : Line → Line
  | [] => []
  | c :: r => if isSpaceCh c then lstrip r else c :: r

/-- Python `str.rstrip()`. -/
def rstrip (l : Line) : Line := (lstrip l.reverse).reverse

/-- Python `str.strip()`. -/
def strip (l : Line) : Line := rstrip (lstrip l)

/-- Python `line.startswith(pre)`. -/
def startsWithL : Line → Line → Bool
  | [], _ => true
  | _ :: _, [] => false
  | p :: ps, c :: cs => p == c && startsWithL ps cs

/-- Python `sub in l` (substring containment). -/
def containsSub (sub : Line) : Line → Bool
  | [] => startsWithL sub []
  | c :: r => startsWithL sub (c :: r) || containsSub sub r

/-- Python `l.find(sub)`: index of the first occurrence. -/
def findSub (sub : Line) : Line → Option Nat
  | [] => if startsWithL sub [] then some 0 else none
  | c :: r => if startsWithL sub (c :: r) then some 0 else (findSub sub r).map (· + 1)

/-- Python slice `l[a:b]` with step 1, including negative-index semantics;
`none` stands for an omitted bound. -/
def pySlice (l : List α) (a b : Option Int) : List α :=
  let n : Int := l.length
  let norm : Int → Int := fun i => max 0 (min n (if i < 0 then i + n else i))
  let lo := match a with | none => 0 | some i => norm i
  let hi := match b with | none => n | some i => norm i
  (l.take hi.toNat).drop lo.toNat

/-- Python `s.split(maxsplit=1)` (split on whitespace runs, at most once). -/
def splitMax1 (l : Line) : List Line :=
  let l1 := lstrip l
  if l1 = [] then []
  else
    let tok := l1.takeWhile (fun c => !isSpaceCh c)
    let rest := lstrip (l1.dropWhile (fun c => !isSpaceCh c))
    if rest = [] then [tok] else [tok, rest]

/-- Worker for `replaceAll`, structurally recursive on a fuel argument.
Every step consumes at least one character of the line while spending
exactly one unit of fuel, so with fuel equal to the line's length the
fuel runs out only on the empty line: the fuel never cuts a run short. -/
def replaceAllAux (pat rep : Line) : Nat → Line → Line
  | 0, l => l
  | _ + 1, [] => []
  | fuel + 1, c :: r =>
    if pat ≠ [] && startsWithL pat (c :: r) then
      rep ++ replaceAllAux pat rep fuel (r.drop (pat.length - 1))
    else
      c :: replaceAllAux pat rep fuel r

/-- Python `s.replace(pat, rep)`: replace all non-overlapping occurrences,
left to right.  The sources never call it with an empty pattern; for an
empty pattern this returns the input unchanged. -/
def replaceAll (pat rep : Line) (l : Line) : Line :=
  replaceAllAux pat rep l.length l

/-- The value bound to a macro name: `intOne` is the Python integer `1`
sentinel stored by `FortranPreprocessor.define` for a flag macro,
`str` a string value. -/
inductive MacroVal where
  | intOne : MacroVal
  | str : Line → MacroVal
deriving Repr, DecidableEq

/-- Python `d[k] = v` on an insertion-ordered dict modelled as an
association list: overwrite in place, else append. -/
def dictSet [BEq κ] : List (κ × β) → κ → β → List (κ × β)
  | [], k, v => [(k, v)]
  | (k1, v1) :: r, k, v =>
    if k1 == k then (k1, v) :: r else (k1, v1) :: dictSet r k v

/-- Python `d.get(k)` on an association list (first binding wins,
keys of a dict are unique). -/
def lookupD [BEq κ] (l : List (κ × β)) (k : κ) : Option β :=
  (l.find? (fun p => p.1 == k)).map (·.2)

/-- The macro table `FortranPreprocessor.macros`. -/
abbrev MacroTable := List (Line × MacroVal)

/-- The Python exceptions raised by the embedded code. -/
inductive PErr where
  | valueError : String → PErr
  | synError : String → PErr
  | typeError : PErr
  | indexError : PErr
deriving Repr, DecidableEq

/-- Whether an `Except` computation succeeded. -/
def isOkE : Except ε α → Bool
  | .ok _ => true
  | .error _ => false

namespace FortranPreprocessor

/-- Embedding of `FortranPreprocessor.define` (preprocessor.py, lines 44-58):
split on the first two "=" fields when "=" occurs, else bind the integer
sentinel `1`. -/
def define (tbl : MacroTable) (definition : Line) : MacroTable :=
  if containsSub (S "=") definition then
    let temp := definition.splitOn '='
    let name := strip (temp.headD [])
    let value := strip ((temp.drop 1).headD [])
    dictSet tbl name (MacroVal.str value)
  else
    dictSet tbl (strip definition) MacroVal.intOne

/-- The `#if` nesting counter update of `_parse_define_directives`
(preprocessor.py, lines 150-153): a line opening with `#if` increments
it, one opening with `#endif` decrements it (the counter is a Python
int and may go negative). -/
def icAfter (ln : Line) (ifCount : Int) : Int :=
  let ic1 := if startsWithL (S "#if") (lstrip (lowerLine ln)) then ifCount + 1 else ifCount
  if startsWithL (S "#endif") (lstrip (lowerLine ln)) then ic1 - 1 else ic1

/-- Worker for `_parse_define_directives` (preprocessor.py, lines 127-174):
walks the lines keeping an `#if` nesting counter, removes and registers
`#define NAME [VALUE]` lines found outside every `#if` block.  A bare
`#define` with no name raises Python `IndexError` at `values[0]`. -/
def parseDefinesAux (tbl : MacroTable) (ifCount : Int) (count : Nat) :
    List Line → Except PErr (List Line × MacroTable × Nat)
  | [] => .ok ([], tbl, count)
  | ln :: rest =>
    let low := lowerLine ln
    let ic2 := icAfter ln ifCount
    if startsWithL (S "#define") (lstrip low) && ic2 < 1 then
      let ind := (findSub (S "define") low).getD 0
      let entry := strip (ln.drop (ind + 6))
      match splitMax1 entry with
      | [] => .error .indexError
      | name0 :: vals =>
        let name := strip name0
        let value := match vals with
          | [] => S "1"
          | v :: _ => strip v
        let tbl1 := define tbl (name ++ S "=" ++ value)
        parseDefinesAux tbl1 ic2 (count + 1) rest
    else do
      let (ls, t, c) ← parseDefinesAux tbl ic2 count rest
      .ok (ln :: ls, t, c)

/-- Embedding of `_parse_define_directives` itself. -/
def parseDefineDirectives (tbl : MacroTable) (text : List Line) :
    Except PErr (List Line × MacroTable × Nat) :=
  parseDefinesAux tbl 0 0 text

/-- Python `os.path.join(d, name)` for the plain relative names used here. -/
def joinPath (d name : Line) : Line := d ++ '/' :: name

/-- The file system seen by `#include` resolution: path to file lines. -/
abbrev FileSys := List (Line × List Line)

/-- Embedding of `_parse_include_directives` (preprocessor.py, lines 405-448):
an `#include` line is replaced by the contents of the first file, in
`search_paths` order, that exists; a missing file raises `ValueError`. -/
def parseIncludeDirectives (fs : FileSys) (searchPaths : List Line) :
    List Line → Except PErr (List Line)
  | [] => .ok []
  | ln :: rest =>
    let low := lowerLine ln
    if startsWithL (S "#") (lstrip low) && containsSub (S "include") low then
      let ind := (findSub (S "include") low).getD 0
      let name0 := strip (ln.drop (ind + 7))
      let name :=
        if startsWithL [Char.ofNat 39] name0 || startsWithL (S "\"") name0 then
          pySlice name0 (some 1) (some (-1))
        else name0
      match (searchPaths.map (fun d => joinPath d name)).find?
          (fun f => (lookupD fs f).isSome) with
      | none => .error (.valueError "ERROR: path does not contain #include file")
      | some f => do
        let tail ← parseIncludeDirectives fs searchPaths rest
        .ok (((lookupD fs f).getD []) ++ tail)
    else do
      let tail ← parseIncludeDirectives fs searchPaths rest
      .ok (ln :: tail)

/-- Result of `_parse_single_if`: updated macro table, selected lines,
number of removed lines, local index threshold, and which block was used. -/
structure SingleIfRes where
  tbl : MacroTable
  contents : List Line
  nremoved : Int
  threshold : Int
  usedFirst : Bool
deriving Repr, DecidableEq

/-- Embedding of `_parse_single_if` (preprocessor.py, lines 314-403). -/
def parseSingleIf (tbl : MacroTable) (text : List Line) (ielse : Option Int) :
    Except PErr SingleIfRes :=
  let ninput : Int := text.length
  if ninput < 1 then .error (.valueError "ERROR: Cannot parse single-if, line is empty")
  else
    let threshold : Int := match ielse with | none => ninput - 1 | some i => i
    let fLine := text.headD []
    let fline := lowerLine fLine
    let parsedName : Except PErr (Bool × Line) :=
      if containsSub (S "ifndef") fline then
        .ok (true, strip (fLine.drop (((findSub (S "ifndef") fline).getD 0) + 6)))
      else if containsSub (S "ifdef") fline then
        .ok (false, strip (fLine.drop (((findSub (S "ifdef") fline).getD 0) + 5)))
      else .error (.valueError "ERROR: Cannot parse single-if, it has no #if statement")
    match parsedName with
    | .error e => .error e
    | .ok (isNdef, name) =>
      if !(startsWithL (S "#endif") (lstrip (lowerLine (text.getLastD [])))) then
        .error (.valueError "ERROR: Cannot parse single-if, it has no #endif statement")
      else
        let isDefined := (lookupD tbl name).isSome
        let takeFirst := (!isNdef && isDefined) || (isNdef && !isDefined)
        let block :=
          if takeFirst then pySlice text (some 1) (some threshold)
          else pySlice text (some (threshold + 1)) (some (-1))
        let nrem : Int := ninput - block.length
        match parseDefineDirectives tbl block with
        | .error e => .error e
        | .ok (contents, tbl1, count) =>
          .ok ⟨tbl1, contents, nrem + count, threshold, takeFirst⟩

end FortranPreprocessor

namespace FortranPreprocessor

/-- Line classifier used by the scan loop of `_parse_if_directives`
(preprocessor.py, lines 201-227): a block-opening directive line. -/
def lineOpens (l : Line) : Bool :=
  let low := lowerLine l
  startsWithL (S "#") (lstrip low) &&
    (containsSub (S "#ifdef") low || containsSub (S "#ifndef") low ||
      containsSub (S "#if") low)

/-- Line classifier: an `#else` directive line. -/
def lineElse (l : Line) : Bool :=
  let low := lowerLine l
  startsWithL (S "#") (lstrip low) && containsSub (S "#else") low

/-- Line classifier: an `#endif` directive line. -/
def lineEndif (l : Line) : Bool :=
  let low := lowerLine l
  startsWithL (S "#") (lstrip low) && containsSub (S "#endif") low

/-- Scan state of `_parse_if_directives`: the per-block index lists `ifs`,
the stack `active_if` of open block numbers, and the directive counters. -/
structure ScanSt where
  ifs : List (List Int)
  active : List Nat
  nif : Nat
  nendif : Nat
deriving Repr, DecidableEq

/-- Python `ifs[idx].append(i)`. -/
def appendAt (l : List (List Int)) (idx : Nat) (i : Nat) : List (List Int) :=
  l.set idx (l.getD idx [] ++ [(i : Int)])

/-- One iteration of the scan loop of `_parse_if_directives`: record an
opening directive, an `#else`, and an `#endif` (each check is a separate
`if` in the source, in this order).  An `#else`/`#endif` with no open
block raises `ValueError`. -/
def scanLine (i : Nat) (ln : Line) (st : ScanSt) : Except PErr ScanSt :=
  let st1 :=
    if lineOpens ln then
      { st with ifs := st.ifs ++ [[(i : Int)]], active := st.active ++ [st.ifs.length],
                nif := st.nif + 1 }
    else st
  match (if lineElse ln then
      match st1.active.getLast? with
      | none => Except.error (PErr.valueError "ERROR: parsing #else failed, possible missing #if?")
      | some idx => Except.ok { st1 with ifs := appendAt st1.ifs idx i }
    else Except.ok st1) with
  | .error e => .error e
  | .ok st2 =>
    if lineEndif ln then
      match st2.active.getLast? with
      | none => .error (.valueError "ERROR: parsing #endif failed, possible missing #if?")
      | some idx =>
        .ok { st2 with ifs := appendAt st2.ifs idx i, active := st2.active.dropLast,
                       nendif := st2.nendif + 1 }
    else .ok st2

/-- The scan loop itself, starting at line index `i`. -/
def scanAux (i : Nat) (st : ScanSt) : List Line → Except PErr ScanSt
  | [] => .ok st
  | ln :: rest =>
    match scanLine i ln st with
    | .error e => .error e
    | .ok st1 => scanAux (i + 1) st1 rest

/-- The scan phase of `_parse_if_directives` (preprocessor.py, lines
193-231), ending with the `Nif != Nendif` structural check that raises
`SyntaxError`. -/
def scanIfBlocks (text : List Line) : Except PErr ScanSt :=
  match scanAux 0 ⟨[], [], 0, 0⟩ text with
  | .error e => .error e
  | .ok st =>
    if st.nif == st.nendif then .ok st
    else .error (.synError "ERROR: unmatched #if-#endif statements")

/-- Index adjustment applied to the not-yet-processed blocks after block
`i` collapses (preprocessor.py, lines 266-310).  The three cases are the
sequential `if` statements of the source (a later case overrides an
earlier one), and a block matching no case is cleared. -/
def adjustBlocks (usedFirst : Bool) (idxThr iend nrem : Int)
    (blocks : List (List Int)) : List (List Int) :=
  blocks.map (fun blk =>
    match blk with
    | [] => []
    | s :: _ =>
      let case1 := usedFirst && decide (s < idxThr)
      let case2 := !usedFirst && decide (s > idxThr) && decide (s < iend)
      let case3 := decide (s > iend)
      if case3 then blk.map (· - nrem)
      else if case2 then blk.map (· - (nrem - 1))
      else if case1 then blk.map (· - 1)
      else [])

/-- Processing state of the `for i in range(Nif)` loop: the macro table,
the working line buffer `parsed_text`, and the (mutated) `ifs` lists. -/
structure ProcSt where
  tbl : MacroTable
  ptext : List Line
  ifs : List (List Int)
deriving Repr, DecidableEq

/-- One iteration of the processing loop of `_parse_if_directives`
(preprocessor.py, lines 236-310): extract block `i`, resolve it with
`_parse_single_if`, splice the selected lines into the buffer, and adjust
the indices of the blocks after `i`. -/
def processBlock (st : ProcSt) (i : Nat) : Except PErr ProcSt :=
  let blk := st.ifs.getD i []
  if blk.length < 2 then .ok st
  else
    let istart := blk.headD 0
    let iend := blk.getLastD 0
    let ifText := pySlice st.ptext (some istart) (some (iend + 1))
    let ielse := if blk.length == 3 then some (blk.getD 1 0 - istart) else none
    match parseSingleIf st.tbl ifText ielse with
    | .error e => .error e
    | .ok res =>
      let ptext1 := pySlice st.ptext none (some istart) ++ res.contents ++
        pySlice st.ptext (some (iend + 1)) none
      let thr := res.threshold + istart
      let ifs1 := st.ifs.take (i + 1) ++
        adjustBlocks res.usedFirst thr iend res.nremoved (st.ifs.drop (i + 1))
      .ok ⟨res.tbl, ptext1, ifs1⟩

/-- Embedding of `_parse_if_directives` (preprocessor.py, lines 176-312):
scan for blocks, then process them top to bottom. -/
def parseIfDirectives (tbl : MacroTable) (text : List Line) :
    Except PErr (MacroTable × List Line) :=
  match scanIfBlocks text with
  | .error e => .error e
  | .ok st =>
    match (List.range st.nif).foldlM processBlock ⟨tbl, text, st.ifs⟩ with
    | .error e => .error e
    | .ok p => .ok (p.tbl, p.ptext)

/-- One substitution attempt of the macro substitution pass
(preprocessor.py, lines 120-123): if the macro name occurs in the
current line, Python calls `contents[i].replace(name, self.macros[name])`;
a flag macro stores the integer sentinel, which `str.replace` rejects by
raising `TypeError`.  (A name absent from the table cannot occur, since
the names are drawn from the table's keys.) -/
def applyOne (tbl : MacroTable) (cur name : Line) : Except PErr Line :=
  if containsSub name cur then
    match lookupD tbl name with
    | some (MacroVal.str v) => pure (replaceAll name v cur)
    | some MacroVal.intOne => throw PErr.typeError
    | none => pure cur
  else pure cur

/-- The substitution order of `parse` (preprocessor.py, line 117): the
macro names, Python-stably sorted by name length and reversed, so that
the longest names are tried first. -/
def sortedNames (tbl : MacroTable) : List Line :=
  (List.insertionSort (fun a b : Line => a.length ≤ b.length) (tbl.map (·.1))).reverse

/-- The macro substitution pass at the end of `parse` (preprocessor.py,
lines 116-123). -/
def applyMacros (tbl : MacroTable) (lines : List Line) : Except PErr (List Line) :=
  lines.mapM (fun l => (sortedNames tbl).foldlM (applyOne tbl) l)

/-- The three directive passes of `parse` (preprocessor.py, lines 111-114). -/
def directivePasses (fs : FileSys) (searchPaths : List Line) (tbl : MacroTable)
    (text : List Line) : Except PErr (MacroTable × List Line) :=
  match parseIncludeDirectives fs searchPaths text with
  | .error e => .error e
  | .ok c1 =>
    match parseDefineDirectives tbl c1 with
    | .error e => .error e
    | .ok (c2, tbl1, _) => parseIfDirectives tbl1 c2

/-- Embedding of `FortranPreprocessor.parse` (preprocessor.py, lines
86-125): the three directive passes followed by macro substitution. -/
def parse (fs : FileSys) (searchPaths : List Line) (tbl : MacroTable)
    (text : List Line) : Except PErr (List Line) :=
  match directivePasses fs searchPaths tbl text with
  | .error e => .error e
  | .ok (tbl1, c) => applyMacros tbl1 c

end FortranPreprocessor

namespace FortranFile

/-- Embedding of `FortranFile.get_uses` (core.py, lines 155-172): the file
is its dict of units, each unit carrying its own (already lowercased and
per-unit deduplicated) uses list; the file-level list is their
concatenation in dict order.  The source line `list(set(uses)).sort()`
builds a fresh list, sorts that copy in place and discards it, so it
neither sorts nor deduplicates the returned list. -/
def getUses (modules : List (String × List String)) : List String :=
  modules.foldl (fun acc p => acc ++ p.2) []

end FortranFile

namespace FortranProject

/-- `default_ignored_modules` (dependencies.py, lines 10-11). -/
def defaultIgnoredModules : List String := ["iso_c_binding", "iso_fortran_env"]

/-- Python `list.remove(x)`: delete the first occurrence only. -/
def removeFirst (x : String) : List String → List String
  | [] => []
  | y :: r => if y == x then r else y :: removeFirst x r

/-- The project state touched by `remove_ignored_modules`: the unit
registry (unit name to its uses) and the file registry (filename to the
file-level uses list produced by `FortranFile.get_uses`). -/
structure ProjSt where
  modules : List (String × List String)
  files : List (String × List String)
deriving Repr, DecidableEq

/-- Embedding of `remove_ignored_modules` (dependencies.py, lines
166-198).  The source merges the caller list with the defaults through
`list(set(...))`, whose order Python leaves unspecified; it is modelled
as order-preserving deduplication, which is harmless because removals of
distinct names commute.  For each ignored name: pop it from the unit
registry, then `list.remove` it (first occurrence only) from every
remaining unit's uses and from every file's uses. -/
def removeIgnoredModules (ignore : List String) (st : ProjSt) : ProjSt :=
  let igs := (ignore ++ defaultIgnoredModules).dedup
  igs.foldl (fun st ig =>
    let mods := (st.modules.filter (fun p => p.1 ≠ ig)).map
      (fun p => (p.1, if p.2.length > 0 && p.2.contains ig then removeFirst ig p.2 else p.2))
    let fls := st.files.map
      (fun p => (p.1, if p.2.length > 0 && p.2.contains ig then removeFirst ig p.2 else p.2))
    ⟨mods, fls⟩) st

/-- A `FortranModule` as `get_depends_by_module` sees it: its lowercase
name, its uses, and the defining file's path (`source_file.filename`). -/
structure FMod where
  name : String
  uses : List String
  filename : String
deriving Repr, DecidableEq

/-- Resolution of a used module name in the unit registry
(`self.modules[used_mod]`). -/
def lookupMod (mods : List FMod) (n : String) : Option FMod :=
  mods.find? (fun m => m.name == n)

/-- The `for used_mod in module.uses` loop of `get_depends_by_module`
(dependencies.py, lines 217-225): append each resolved unit, catch the
`KeyError` of an unresolved name by clearing the success flag. -/
def resolveGraph (mods : List FMod) (uses : List String) (init : List FMod × Bool) :
    List FMod × Bool :=
  uses.foldl (fun (p : List FMod × Bool) u =>
    match lookupMod mods u with
    | some md => (p.1 ++ [md], p.2)
    | none => (p.1, false)) init

/-- One iteration of the `for module in self.modules.values()` loop of
`get_depends_by_module`: resolve the unit's uses and store the list,
Python-sorted by the defining file's path, under the unit's name. -/
def dependsStep (mods : List FMod) (acc : List (String × List FMod) × Bool)
    (m : FMod) : List (String × List FMod) × Bool :=
  let (graph, ok1) := resolveGraph mods m.uses ([], acc.2)
  (dictSet acc.1 m.name
    (List.insertionSort (fun a b : FMod => a.filename ≤ b.filename) graph), ok1)

/-- Embedding of `get_depends_by_module` (dependencies.py, lines 200-241):
for each unit, resolve each used name in the registry; a `KeyError` is
caught, clears the success flag and skips the name; the per-unit list is
Python-sorted by the defining file's path; finally the dict is rebuilt
with keys Python-sorted by dependency-list length. -/
def getDependsByModule (mods : List FMod) (success : Bool) :
    List (String × List FMod) × Bool :=
  let (deps, ok) := mods.foldl (dependsStep mods) ([], success)
  (List.insertionSort (fun a b : String × List FMod => a.2.length ≤ b.2.length) deps, ok)

/-- Lexicographic comparison of character lists by code point, the order
Python uses on strings. -/
def leChars : List Char → List Char → Bool
  | [], _ => true
  | _ :: _, [] => false
  | a :: as, b :: bs => decide (a < b) || (a == b && leChars as bs)

/-- Python `sorted(list(set(l)))` on strings: the set scrambles, the sort
restores the unique ascending order, so the result is deterministic. -/
def sortedSetStr (l : List String) : List String :=
  List.insertionSort (fun a b : String => leChars a.data b.data = true) l.dedup

/-- Embedding of `_get_all_used_modules` (dependencies.py, lines 454-480):
the depth-first walk over `uses` edges with the shared, mutated `state`
list.  The callee mutates the very list the caller extends with the
callee's sorted-set return value, which is mirrored by threading the
state through.  A used name missing from the registry is appended to the
state before the `KeyError` clears the success flag.  Python's unbounded
recursion is modelled with explicit fuel; the inputs evaluated here stay
far below it. -/
def getHelper (reg : List (String × List String)) :
    Nat → String → List String × Bool → List String × Bool
  | 0, _, sb => sb
  | fuel + 1, name, sb =>
    ((lookupD reg name).getD []).foldl (fun (p : List String × Bool) module =>
      if module ∈ p.1 then p
      else
        let st1 := p.1 ++ [module]
        match lookupD reg module with
        | none => (st1, false)
        | some mu =>
          if mu ≠ [] then
            let q := getHelper reg fuel module (st1, p.2)
            (q.1 ++ sortedSetStr q.1, q.2)
          else (st1, p.2)) sb

/-- Embedding of `get_all_used_modules` (dependencies.py, lines 434-452):
run the walk from an empty state; the source's final `list(set(x))` only
permutes the already-deduplicated result and is modelled as the
canonical sorted order.  A start unit missing from the registry raises
(`KeyError` in the loop header). -/
def getAllUsedModules (reg : List (String × List String)) (fuel : Nat)
    (name : String) : Except Unit (List String) :=
  match lookupD reg name with
  | none => .error ()
  | some _ => .ok (sortedSetStr (getHelper reg fuel name ([], true)).1)

end FortranProject

namespace FortranPreprocessor

/-- The three directive roles the scan loop can assign one line
(opening, `#else`, `#endif`); a single line can carry several. -/
def lineFlags (l : Line) : Bool × Bool × Bool := (lineOpens l, lineElse l, lineEndif l)

/-- One step of the reference depth automaton for the scan loop: an
opening directive raises the depth, an `#endif` lowers it, and an
`#else` or `#endif` at depth zero is an underflow (`none`). -/
def stepDepth (d : Nat) (f : Bool × Bool × Bool) : Option Nat :=
  let d1 := if f.1 then d + 1 else d
  if f.2.1 && d1 == 0 then none
  else if f.2.2 then (if d1 == 0 then none else some (d1 - 1))
  else some d1

/-- Reference depth automaton for the scan loop: the running nesting
depth, `none` on an `#else`/`#endif` with no open block. -/
def depthRun : Nat → List (Bool × Bool × Bool) → Option Nat
  | d, [] => some d
  | d, f :: rest =>
    match stepDepth d f with
    | none => none
    | some d1 => depthRun d1 rest

/-- Balanced, well-nested conditional input: no `#else`/`#endif` ever
appears with no block open, and every opened block is closed. -/
def balancedDirectives (text : List Line) : Bool :=
  depthRun 0 (text.map lineFlags) == some 0

end FortranPreprocessor

section ConcreteInputs

open FortranPreprocessor FortranProject

/-- An empty include file system (the inputs below contain no includes). -/
def noFs : FileSys := []

/-- Claim C1 failing input: `OUTER` is taken, its branch holds a
`#define` followed by a nested block on the undefined macro `B`; the line
between `#ifdef B` and `secret` contains the word `ifdef` and the defined
name `Z`. -/
def textC1 : List Line :=
  [S "#ifdef OUTER", S "#define X", S "#ifdef B", S "leak ifdef Z",
   S "secret", S "#endif", S "#endif"]

/-- Claim C1 macro table: `OUTER` and `Z` defined with string values. -/
def tblC1 : MacroTable := [(S "OUTER", MacroVal.str (S "1")), (S "Z", MacroVal.str (S "1"))]

/-- Claim C2 input: the nested scenario-D blocks around a content line. -/
def textC2 (code1 : Line) : List Line :=
  [S "#ifdef OUTER", S "#ifdef INNER", code1, S "#endif", S "#endif"]

/-- Claim C2 witness macro table: exactly `OUTER` defined. -/
def tblC2 : MacroTable := [(S "OUTER", MacroVal.str (S "1"))]

/-- Claim C7 input: an `#elif` between the two halves of a taken block. -/
def textC7 : List Line :=
  [S "#ifdef FOO", S "a", S "#elif BAR", S "b", S "#endif"]

/-- Claim C7 macro table: `FOO` defined. -/
def tblC7 : MacroTable := [(S "FOO", MacroVal.str (S "1"))]

/-- Claim C10 counterexample table: the flag macro `AB` (integer
sentinel) next to the longer string macro `ABC`. -/
def tblC10 : MacroTable := [(S "ABC", MacroVal.str (S "x")), (S "AB", MacroVal.intOne)]

/-- Claim C10 witness table: a single flag macro `M`. -/
def tblC10w : MacroTable := [(S "M", MacroVal.intOne)]

/-- Claim C6 file system: both search directories hold a file `inc.h`,
with distinguishable contents. -/
def fsC6 : FileSys := [(S "d1/inc.h", [S "from d1"]), (S "d2/inc.h", [S "from d2"])]

/-- Claim C6 input: one double-quoted include directive. -/
def textC6 : List Line := [S "#include \"inc.h\""]

/-- Claim C3 registry: two modules using each other (a dependency cycle). -/
def regC3 : List (String × List String) := [("a", ["b"]), ("b", ["a"])]

/-- Claim C4 failing input: two units of one file, each using `common`. -/
def modsC4 : List (String × List String) := [("m1", ["common"]), ("m2", ["common"])]

/-- Claim C5 failing input: the unit registry of `modsC4` with
`iso_c_binding` in place of `common`, and the file registry built from
`FortranFile.getUses`, so the file-level list holds the name twice. -/
def stC5 : ProjSt :=
  ⟨[("m1", ["iso_c_binding"]), ("m2", ["iso_c_binding"])],
   [("f.f90", FortranFile.getUses [("m1", ["iso_c_binding"]), ("m2", ["iso_c_binding"])])]⟩

/-- Claim C9 witness registry: `b` (file f2.f90) uses `a` and the
unresolvable `nope`; `p` (file f3.f90) uses `b` and `a`. -/
def modsC9 : List FMod :=
  [⟨"b", ["a", "nope"], "f2.f90"⟩, ⟨"a", [], "f1.f90"⟩, ⟨"p", ["b", "a"], "f3.f90"⟩]

end ConcreteInputs

section HelperLemmas

/-- A line that does not start with `c` does not start with any
extension of `c` either. -/
theorem startsWithL_head_false {c : Char} {p l : Line}
    (h : startsWithL [c] l = false) : startsWithL (c :: p) l = false := by
  cases l with
  | nil => rfl
  | cons x xs =>
    simp only [startsWithL, Bool.and_eq_false_iff] at h ⊢
    rcases h with h | h
    · exact Or.inl h
    · simp at h

/-- A line with no occurrence of the character `c` has no occurrence of
any pattern starting with `c`. -/
theorem containsSub_head_false {c : Char} {p : Line} :
    ∀ {l : Line}, containsSub [c] l = false → containsSub (c :: p) l = false := by
  intro l
  induction l with
  | nil => intro _; rfl
  | cons x xs ih =>
    intro h
    simp only [containsSub, Bool.or_eq_false_iff] at h ⊢
    exact ⟨startsWithL_head_false h.1, ih h.2⟩

end HelperLemmas

/-- Claim C1.  The claim is right and the code is wrong: on `textC1`
(macro table `tblC1`, in which `OUTER` and `Z` are defined and `B` is
not), `parse` returns successfully, yet the line `secret` of the
non-taken `#ifdef B` branch survives in the output (together with the
`#ifdef B` directive line itself).  The slip is the `case1` adjustment
of `_parse_if_directives` (`Nadjust = 1`), which ignores the `#define X`
line that `_parse_single_if` removed from the taken outer branch before
the inner block, so the inner block is re-read one line too low. -/
theorem C1_nontaken_branch_line_survives :
    FortranPreprocessor.parse noFs [] tblC1 textC1 =
      Except.ok [S "#ifdef B", S "secret"] := by rfl

/-- Claim C3.  The claim is right and the code is wrong: on the cyclic
registry `regC3` (unit `a` uses `b`, unit `b` uses `a`) the transitive
closure of `a` computed by `get_all_used_modules` contains `a` itself,
contradicting the claimed irreflexivity (and the docstring of
`get_all_used_files`, which promises the defining unit is excluded). -/
theorem C3_closure_contains_start_on_cycle :
    ∃ l, FortranProject.getAllUsedModules regC3 10 "a" = Except.ok l ∧ "a" ∈ l :=
  ⟨["a", "b"], rfl, by decide⟩

/-- Claim C4.  The claim is right and the code is wrong: for a file with
two units that both use `common`, `FortranFile.get_uses` returns the
name twice, because the deduplication line `list(set(uses)).sort()`
builds and discards a fresh list instead of changing `uses`. -/
theorem C4_get_uses_keeps_duplicates :
    FortranFile.getUses modsC4 = ["common", "common"] ∧
      ¬ (FortranFile.getUses modsC4).Nodup := ⟨rfl, by decide⟩

/-- Claim C5.  The claim is right and the code is wrong: in `stC5` the
file list holds `iso_c_binding` twice (the `get_uses` duplicate of C4),
and `remove_ignored_modules` deletes only the first occurrence
(`list.remove`), so the ignored name survives in the file's uses list;
the unit registry and unit uses lists are cleaned as claimed. -/
theorem C5_ignored_name_survives_in_file_uses :
    (FortranProject.removeIgnoredModules [] stC5).modules = [("m1", []), ("m2", [])] ∧
    (FortranProject.removeIgnoredModules [] stC5).files = [("f.f90", ["iso_c_binding"])] ∧
    ∃ p ∈ (FortranProject.removeIgnoredModules [] stC5).files, "iso_c_binding" ∈ p.2 :=
  ⟨rfl, rfl, ("f.f90", ["iso_c_binding"]), by decide, by decide⟩

/-- Claim C6.  The in-place replacement and the missing-file error hold,
but which file is included depends on the order of the stored
`search_paths` list: with `d1` first the include comes from `d1`, with
`d2` first from `d2`, and with no path it raises.  The code is wrong
about the claimed insertion order: `add_path` deduplicates through
`list(set(...))`, which destroys insertion order, so the stored order
(and hence the chosen file) is Python-set iteration order, not the
order the paths were added. -/
theorem C6_include_choice_depends_on_path_order :
    FortranPreprocessor.parseIncludeDirectives fsC6 [S "d1", S "d2"] textC6 =
      Except.ok [S "from d1"] ∧
    FortranPreprocessor.parseIncludeDirectives fsC6 [S "d2", S "d1"] textC6 =
      Except.ok [S "from d2"] ∧
    FortranPreprocessor.parseIncludeDirectives fsC6 [] textC6 =
      Except.error (PErr.valueError "ERROR: path does not contain #include file") :=
  ⟨rfl, rfl, rfl⟩

/-- Claim C7, counterexample.  On `textC7` (macro table `tblC7`, `FOO`
defined) the `#elif BAR` line is neither a parse error nor reported:
`parse` returns successfully and the line is carried through as
ordinary text inside the selected branch, together with both `a` and
`b`.  This refutes the claim as stated. -/
theorem C7_elif_resolved_as_ordinary_text :
    FortranPreprocessor.parse noFs [] tblC7 textC7 =
      Except.ok [S "a", S "#elif BAR", S "b"] := by rfl

/-- Helper for claim C7: a lowered line of the form `#elif` followed by
text with no further `#` contains none of the five directive tokens the
conditional-resolution scan looks for. -/
theorem elifCtx_no_directive_tokens (rest : Line)
    (hr : containsSub (S "#") rest = false) :
    containsSub (S "#ifdef") (S "#elif" ++ rest) = false ∧
    containsSub (S "#ifndef") (S "#elif" ++ rest) = false ∧
    containsSub (S "#if") (S "#elif" ++ rest) = false ∧
    containsSub (S "#else") (S "#elif" ++ rest) = false ∧
    containsSub (S "#endif") (S "#elif" ++ rest) = false := by
  show containsSub (S "#ifdef") ('#' :: 'e' :: 'l' :: 'i' :: 'f' :: rest) = false ∧
    containsSub (S "#ifndef") ('#' :: 'e' :: 'l' :: 'i' :: 'f' :: rest) = false ∧
    containsSub (S "#if") ('#' :: 'e' :: 'l' :: 'i' :: 'f' :: rest) = false ∧
    containsSub (S "#else") ('#' :: 'e' :: 'l' :: 'i' :: 'f' :: rest) = false ∧
    containsSub (S "#endif") ('#' :: 'e' :: 'l' :: 'i' :: 'f' :: rest) = false
  simp only [containsSub, startsWithL, S]
  norm_num
  refine ⟨⟨?_, ?_, ?_, ?_, ?_, containsSub_head_false hr⟩,
    ⟨?_, ?_, ?_, ?_, ?_, containsSub_head_false hr⟩,
    ⟨?_, ?_, ?_, ?_, ?_, containsSub_head_false hr⟩,
    ⟨?_, ?_, ?_, ?_, ?_, containsSub_head_false hr⟩,
    ⟨?_, ?_, ?_, ?_, ?_, containsSub_head_false hr⟩⟩ <;>
    (intro h; exact absurd h (by decide))

/-- Claim C7, amended.  The `#elif` directive is simply not recognized
by conditional resolution: any line whose lowered form is `#elif`
followed by text containing no further `#` is classified as neither a
block opener, an `#else`, nor an `#endif`, and the scan loop of
`_parse_if_directives` passes over it leaving its state unchanged — it
is treated as ordinary text (and, as `textC7` shows, retained in the
selected branch), neither raising a parse error nor being reported. -/
theorem C7_elif_never_recognized_as_directive (l rest : Line)
    (h : lowerLine l = S "#elif" ++ rest) (hr : containsSub (S "#") rest = false) :
    FortranPreprocessor.lineOpens l = false ∧
    FortranPreprocessor.lineElse l = false ∧
    FortranPreprocessor.lineEndif l = false ∧
    ∀ (i : Nat) (st : FortranPreprocessor.ScanSt),
      FortranPreprocessor.scanLine i l st = Except.ok st := by
  obtain ⟨h1, h2, h3, h4, h5⟩ := elifCtx_no_directive_tokens rest hr
  have ho : FortranPreprocessor.lineOpens l = false := by
    simp only [FortranPreprocessor.lineOpens, h, h1, h2, h3, Bool.or_self,
      Bool.or_false, Bool.and_false]
  have he : FortranPreprocessor.lineElse l = false := by
    simp only [FortranPreprocessor.lineElse, h, h4, Bool.and_false]
  have hc : FortranPreprocessor.lineEndif l = false := by
    simp only [FortranPreprocessor.lineEndif, h, h5, Bool.and_false]
  refine ⟨ho, he, hc, fun i st => ?_⟩
  simp only [FortranPreprocessor.scanLine, ho, he, hc, Bool.false_eq_true,
    if_false, reduceIte]

/-- Witness for claim C7's amended theorem, at the line `#elif BAR` and
a scan state with one open block. -/
theorem C7_elif_never_recognized_witness :
    FortranPreprocessor.lineOpens (S "#elif BAR") = false ∧
    FortranPreprocessor.lineElse (S "#elif BAR") = false ∧
    FortranPreprocessor.lineEndif (S "#elif BAR") = false ∧
    FortranPreprocessor.scanLine 2 (S "#elif BAR") ⟨[[0]], [0], 1, 0⟩ =
      Except.ok ⟨[[0]], [0], 1, 0⟩ := by
  obtain ⟨a, b, c, d⟩ :=
    C7_elif_never_recognized_as_directive (S "#elif BAR") (S " bar")
      (by decide) (by decide)
  exact ⟨a, b, c, d 2 ⟨[[0]], [0], 1, 0⟩⟩
section C2Development

open FortranPreprocessor

/-- A line that is not an include directive passes through
`_parse_include_directives` unchanged. -/
theorem inc_cons_skip (fs : FileSys) (paths : List Line) (ln : Line) (rest : List Line)
    (h : (startsWithL (S "#") (lstrip (lowerLine ln)) &&
      containsSub (S "include") (lowerLine ln)) = false) :
    parseIncludeDirectives fs paths (ln :: rest) =
      (do let t ← parseIncludeDirectives fs paths rest; Except.ok (ln :: t)) := by
  rw [parseIncludeDirectives]
  simp only [h, Bool.false_eq_true, if_false]

/-- A line that does not open with `#define` passes through
`_parse_define_directives` unchanged (updating the nesting counter). -/
theorem defines_cons_skip (tbl : MacroTable) (ic : Int) (count : Nat) (ln : Line)
    (rest : List Line)
    (h : startsWithL (S "#define") (lstrip (lowerLine ln)) = false) :
    parseDefinesAux tbl ic count (ln :: rest) =
      (do let (ls, t, c) ← parseDefinesAux tbl (icAfter ln ic) count rest
          Except.ok (ln :: ls, t, c)) := by
  rw [parseDefinesAux]
  simp only [h, Bool.false_and, Bool.false_eq_true, if_false]

/-- A line carrying none of the three directive roles leaves the scan
state untouched. -/
theorem scanLine_inert (i : Nat) (ln : Line) (st : ScanSt)
    (ho : lineOpens ln = false) (he : lineElse ln = false)
    (hc : lineEndif ln = false) : scanLine i ln st = Except.ok st := by
  simp only [scanLine, ho, he, hc, Bool.false_eq_true, if_false, reduceIte]




/-- Reduction of an `Except` bind on a success value. -/
theorem exc_ok_bind {A B : Type} (a : A) (f : A → Except PErr B) :
    (Except.ok a >>= f) = f a := rfl

/-- Claim C2.  For any content line `code1` that is not a directive
line and any macro table in which `OUTER` is defined and `INNER` is
not, resolving the nested scenario-D blocks returns the empty line
sequence; and after the outer block collapses, the pending inner
block's index pair is adjusted from `[1, 3]` to `[0, 2]`, which indeed
addresses the `#ifdef INNER` ... `#endif` lines of the shrunk buffer. -/
theorem C2_nested_collapse_empty_output (tbl : MacroTable) (code1 : Line)
    (hplain : startsWithL (S "#") (lstrip (lowerLine code1)) = false)
    (hOut : (lookupD tbl (S "OUTER")).isSome = true)
    (hInn : lookupD tbl (S "INNER") = none) :
    processBlock ⟨tbl, textC2 code1, [[0, 4], [1, 3]]⟩ 0 =
      Except.ok ⟨tbl, [S "#ifdef INNER", code1, S "#endif"], [[0, 4], [0, 2]]⟩ ∧
    parse noFs [] tbl (textC2 code1) = Except.ok [] := by
  have hdfn : startsWithL (S "#define") (lstrip (lowerLine code1)) = false :=
    startsWithL_head_false hplain
  have ho : lineOpens code1 = false := by
    simp only [lineOpens, hplain, Bool.false_and]
  have he : lineElse code1 = false := by
    simp only [lineElse, hplain, Bool.false_and]
  have hcf : lineEndif code1 = false := by
    simp only [lineEndif, hplain, Bool.false_and]
  -- include pass is inert
  have hInc : parseIncludeDirectives noFs [] (textC2 code1) = Except.ok (textC2 code1) := by
    show parseIncludeDirectives noFs []
      (S "#ifdef OUTER" :: S "#ifdef INNER" :: code1 :: S "#endif" :: S "#endif" :: []) = _
    rw [inc_cons_skip noFs [] (S "#ifdef OUTER") _ (by decide),
        inc_cons_skip noFs [] (S "#ifdef INNER") _ (by decide),
        inc_cons_skip noFs [] code1 _ (by rw [hplain]; rfl),
        inc_cons_skip noFs [] (S "#endif") (S "#endif" :: []) (by decide),
        inc_cons_skip noFs [] (S "#endif") ([]) (by decide)]
    rfl
  -- top-level define pass is inert
  have hDefPass : parseDefineDirectives tbl (textC2 code1) =
      Except.ok (textC2 code1, tbl, 0) := by
    show parseDefinesAux tbl 0 0
      (S "#ifdef OUTER" :: S "#ifdef INNER" :: code1 :: S "#endif" :: S "#endif" :: []) = _
    rw [defines_cons_skip _ _ _ (S "#ifdef OUTER") _ (by decide)]
    rw [defines_cons_skip _ _ _ (S "#ifdef INNER") _ (by decide)]
    rw [defines_cons_skip _ _ _ code1 _ hdfn]
    rw [defines_cons_skip _ _ _ (S "#endif") (S "#endif" :: []) (by decide)]
    rw [defines_cons_skip _ _ _ (S "#endif") ([]) (by decide)]
    rfl
  -- the scan finds the two nested blocks
  have hScan : scanIfBlocks (textC2 code1) =
      Except.ok ⟨[[0, 4], [1, 3]], [], 2, 2⟩ := by
    have hsa : scanAux 0 ⟨[], [], 0, 0⟩ (textC2 code1) =
        Except.ok ⟨[[0, 4], [1, 3]], [], 2, 2⟩ := by
      show scanAux 2 ⟨[[0], [1]], [0, 1], 2, 0⟩
        (code1 :: S "#endif" :: S "#endif" :: []) = _
      rw [scanAux, scanLine_inert 2 code1 _ ho he hcf]
      rfl
    rw [scanIfBlocks, hsa]
    rfl
  -- the outer block is taken and keeps the inner block's lines
  have hdefInner : parseDefineDirectives tbl [S "#ifdef INNER", code1, S "#endif"] =
      Except.ok ([S "#ifdef INNER", code1, S "#endif"], tbl, 0) := by
    show parseDefinesAux tbl 0 0 (S "#ifdef INNER" :: code1 :: S "#endif" :: []) = _
    rw [defines_cons_skip _ _ _ (S "#ifdef INNER") _ (by decide)]
    rw [defines_cons_skip _ _ _ code1 _ hdfn]
    rw [defines_cons_skip _ _ _ (S "#endif") ([]) (by decide)]
    rfl
  have hsingle0 : parseSingleIf tbl (textC2 code1) none =
      Except.ok ⟨tbl, [S "#ifdef INNER", code1, S "#endif"], 2, 4, true⟩ := by
    have e1 : containsSub (S "ifndef") (lowerLine ((textC2 code1).headD [])) = false := rfl
    have e2 : containsSub (S "ifdef") (lowerLine ((textC2 code1).headD [])) = true := rfl
    have e3 : strip (List.drop ((findSub (S "ifdef")
        (lowerLine ((textC2 code1).headD []))).getD 0 + 5) ((textC2 code1).headD [])) =
        S "OUTER" := rfl
    have e4 : startsWithL (S "#endif") (lstrip (lowerLine ((textC2 code1).getLastD []))) =
        true := rfl
    have e5 : ((textC2 code1).length : Int) = 5 := rfl
    have e6 : pySlice (textC2 code1) (some 1) (some 4) =
        [S "#ifdef INNER", code1, S "#endif"] := rfl
    rw [parseSingleIf]
    simp only [e1, e2, e3, e4, e5, hOut, Bool.false_eq_true, if_false, if_true,
      Bool.not_false, Bool.not_true, Bool.true_and, Bool.false_and, Bool.or_false,
      Bool.false_or, Bool.and_false, Bool.and_true, Bool.true_or]
    norm_num
    rw [e6, hdefInner]
    rfl
  have hp0 : processBlock ⟨tbl, textC2 code1, [[0, 4], [1, 3]]⟩ 0 =
      Except.ok ⟨tbl, [S "#ifdef INNER", code1, S "#endif"], [[0, 4], [0, 2]]⟩ := by
    have f1 : pySlice (textC2 code1) (some 0) (some (4 + 1)) = textC2 code1 := rfl
    have g1 : ([[0, 4], [1, 3]] : List (List Int)).getD 0 [] = ([0, 4] : List Int) := rfl
    have g2 : (([0, 4] : List Int)).headD 0 = 0 := rfl
    have g3 : ([0, 4] : List Int).getLastD 0 = 4 := rfl
    have g4 : (([0, 4] : List Int)).length = 2 := rfl
    have g6 : ((2 : Nat) == 3) = false := rfl
    rw [processBlock]
    dsimp only
    simp only [g1, g2, g3, g4, g6, Bool.false_eq_true, if_false, f1]
    rw [hsingle0]
    rfl
  -- the inner block is not taken and contributes nothing
  have hsingle1 : parseSingleIf tbl [S "#ifdef INNER", code1, S "#endif"] none =
      Except.ok ⟨tbl, [], 3, 2, false⟩ := by
    have e1 : containsSub (S "ifndef")
        (lowerLine (([S "#ifdef INNER", code1, S "#endif"] : List Line).headD [])) =
        false := rfl
    have e2 : containsSub (S "ifdef")
        (lowerLine (([S "#ifdef INNER", code1, S "#endif"] : List Line).headD [])) =
        true := rfl
    have e3 : strip (List.drop ((findSub (S "ifdef")
        (lowerLine (([S "#ifdef INNER", code1, S "#endif"] : List Line).headD []))).getD 0 + 5)
        (([S "#ifdef INNER", code1, S "#endif"] : List Line).headD [])) = S "INNER" := rfl
    have e4 : startsWithL (S "#endif")
        (lstrip (lowerLine (([S "#ifdef INNER", code1, S "#endif"] : List Line).getLastD []))) =
        true := rfl
    have e5 : (([S "#ifdef INNER", code1, S "#endif"] : List Line).length : Int) = 3 := rfl
    have e7 : pySlice ([S "#ifdef INNER", code1, S "#endif"] : List Line)
        (some 3) (some (-1)) = [] := rfl
    rw [parseSingleIf]
    simp only [e1, e2, e3, e4, e5, hInn, Option.isSome_none, Bool.false_eq_true, if_false,
      if_true, Bool.not_false, Bool.not_true, Bool.true_and, Bool.false_and, Bool.or_false,
      Bool.false_or, Bool.and_false, Bool.and_true, Bool.true_or]
    norm_num
    rw [e7]
    rfl
  have hp1 : processBlock ⟨tbl, [S "#ifdef INNER", code1, S "#endif"], [[0, 4], [0, 2]]⟩ 1 =
      Except.ok ⟨tbl, [], [[0, 4], [0, 2]]⟩ := by
    have f1 : pySlice ([S "#ifdef INNER", code1, S "#endif"] : List Line)
        (some 0) (some (2 + 1)) = [S "#ifdef INNER", code1, S "#endif"] := rfl
    have g1 : ([[0, 4], [0, 2]] : List (List Int)).getD 1 [] = ([0, 2] : List Int) := rfl
    have g2 : (([0, 2] : List Int)).headD 0 = 0 := rfl
    have g3 : ([0, 2] : List Int).getLastD 0 = 2 := rfl
    have g4 : (([0, 2] : List Int)).length = 2 := rfl
    have g6 : ((2 : Nat) == 3) = false := rfl
    rw [processBlock]
    dsimp only
    simp only [g1, g2, g3, g4, g6, Bool.false_eq_true, if_false, f1]
    rw [hsingle1]
    rfl
  have hIfD : parseIfDirectives tbl (textC2 code1) = Except.ok (tbl, []) := by
    rw [parseIfDirectives, hScan]
    show (match (List.range 2).foldlM processBlock
        (⟨tbl, textC2 code1, [[0, 4], [1, 3]]⟩ : ProcSt) with
      | Except.error e => Except.error e
      | Except.ok p => Except.ok (p.tbl, p.ptext)) = Except.ok (tbl, [])
    rw [show List.range 2 = [0, 1] from rfl]
    rw [List.foldlM_cons, hp0]
    simp only [exc_ok_bind]
    rw [List.foldlM_cons, hp1]
    simp only [exc_ok_bind]
    rfl
  have hDP : directivePasses noFs [] tbl (textC2 code1) = Except.ok (tbl, []) := by
    rw [directivePasses, hInc]
    show (match parseDefineDirectives tbl (textC2 code1) with
      | Except.error e => Except.error e
      | Except.ok (c2, tbl1, _) => parseIfDirectives tbl1 c2) = Except.ok (tbl, [])
    rw [hDefPass]
    exact hIfD
  refine ⟨hp0, ?_⟩
  rw [parse, hDP]
  rfl

/-- Witness for claim C2 at the literal content line `code1` and the
table defining exactly `OUTER`. -/
theorem C2_nested_collapse_witness :
    processBlock ⟨tblC2, textC2 (S "code1"), [[0, 4], [1, 3]]⟩ 0 =
      Except.ok ⟨tblC2, [S "#ifdef INNER", S "code1", S "#endif"], [[0, 4], [0, 2]]⟩ ∧
    parse noFs [] tblC2 (textC2 (S "code1")) = Except.ok [] :=
  C2_nested_collapse_empty_output tblC2 (S "code1") (by decide) (by decide) (by decide)

end C2Development
section C10Development

open FortranPreprocessor

/-- The only exception a single substitution attempt can raise is the
`TypeError` from handing `str.replace` the integer sentinel. -/
theorem applyOne_err_typeonly (tbl : MacroTable) (cur name : Line) (e : PErr)
    (h : applyOne tbl cur name = .error e) : e = PErr.typeError := by
  rw [applyOne] at h
  split at h
  · split at h
    next => exact absurd h (by simp [pure, Except.pure])
    next => simp only [throw, throwThe, MonadExceptOf.throw] at h; exact (Except.error.inj h).symm
    next => exact absurd h (by simp [pure, Except.pure])
  · exact absurd h (by simp [pure, Except.pure])

/-- Hence the only exception one line's substitution loop can raise is
that `TypeError`. -/
theorem foldlM_applyOne_err (tbl : MacroTable) :
    ∀ (names : List Line) (init : Line) (e : PErr),
      names.foldlM (applyOne tbl) init = .error e → e = PErr.typeError := by
  intro names
  induction names with
  | nil =>
    intro init e h
    exact absurd h (by simp [List.foldlM_nil, pure, Except.pure])
  | cons n ns ih =>
    intro init e h
    rw [List.foldlM_cons] at h
    cases ha : applyOne tbl init n with
    | error e1 =>
      rw [ha] at h
      have h2 : (Except.error e1 : Except PErr Line) = Except.error e := h
      cases h2
      exact applyOne_err_typeonly tbl init n e ha
    | ok b =>
      rw [ha] at h
      exact ih b e h

/-- When the flag macro `m` is tried first and occurs in the line, the
line's substitution loop raises `TypeError`. -/
theorem applyLine_err_of_contains (tbl : MacroTable) (m : Line) (rest : List Line)
    (l : Line) (hm : lookupD tbl m = some MacroVal.intOne)
    (hc : containsSub m l = true) :
    (m :: rest).foldlM (applyOne tbl) l = .error PErr.typeError := by
  rw [List.foldlM_cons]
  have h1 : applyOne tbl l m = .error PErr.typeError := by
    rw [applyOne, hc, hm]
    rfl
  rw [h1]
  rfl

/-- The substitution pass over the whole buffer raises `TypeError` as
soon as some line contains the flag macro `m` tried first. -/
theorem mapM_applyLine_err (tbl : MacroTable) (m : Line) (rest : List Line)
    (hm : lookupD tbl m = some MacroVal.intOne) :
    ∀ (contents : List Line), (∃ l ∈ contents, containsSub m l = true) →
      contents.mapM (fun l => (m :: rest).foldlM (applyOne tbl) l) =
        .error PErr.typeError := by
  intro contents
  induction contents with
  | nil => rintro ⟨l, hl, _⟩; exact absurd hl (List.not_mem_nil l)
  | cons l ls ih =>
    rintro ⟨x, hx, hcx⟩
    rw [List.mapM_cons]
    by_cases hcl : containsSub m l = true
    · rw [applyLine_err_of_contains tbl m rest l hm hcl]
      rfl
    · have hxls : x ∈ ls := by
        rcases List.mem_cons.mp hx with rfl | h
        · exact absurd hcx hcl
        · exact h
      cases ha : (m :: rest).foldlM (applyOne tbl) l with
      | error e1 =>
        have he1 : e1 = PErr.typeError := foldlM_applyOne_err tbl (m :: rest) l e1 ha
        rw [he1]
        rfl
      | ok b =>
        rw [ih ⟨x, hxls, hcx⟩]
        rfl

/-- If `m` is a key of the table and every other key is strictly
shorter, then `m` is the first name the substitution pass tries. -/
theorem sortedNames_strictly_longest_first (tbl : MacroTable) (m : Line)
    (hmem : m ∈ tbl.map Prod.fst)
    (hlong : ∀ k ∈ tbl.map Prod.fst, k ≠ m → k.length < m.length) :
    ∃ rest, sortedNames tbl = m :: rest := by
  haveI htot : IsTotal Line (fun a b : Line => a.length ≤ b.length) :=
    ⟨fun a b => Nat.le_total a.length b.length⟩
  haveI htrans : IsTrans Line (fun a b : Line => a.length ≤ b.length) :=
    ⟨fun _ _ _ hab hbc => Nat.le_trans hab hbc⟩
  have hperm : List.Perm (List.insertionSort (fun a b : Line => a.length ≤ b.length)
      (tbl.map Prod.fst)) (tbl.map Prod.fst) :=
    List.perm_insertionSort _ _
  have hsorted : List.Pairwise (fun a b : Line => a.length ≤ b.length)
      (List.insertionSort (fun a b : Line => a.length ≤ b.length) (tbl.map Prod.fst)) :=
    List.sorted_insertionSort _ _
  have hsplit := (List.insertionSort (fun a b : Line => a.length ≤ b.length)
    (tbl.map Prod.fst)).eq_nil_or_concat'
  rcases hsplit with hnil | ⟨L, b, hLb⟩
  · exfalso
    have := hperm.mem_iff.mpr hmem
    rw [hnil] at this
    exact absurd this (List.not_mem_nil m)
  · have hb : b = m := by
      by_contra hne
      have hbsort : b ∈ List.insertionSort (fun a b : Line => a.length ≤ b.length)
          (tbl.map Prod.fst) := by
        rw [hLb]; exact List.mem_append_right L (List.mem_singleton_self b)
      have hbkeys : b ∈ tbl.map Prod.fst := hperm.mem_iff.mp hbsort
      have hblt : b.length < m.length := hlong b hbkeys hne
      have hmsort : m ∈ List.insertionSort (fun a b : Line => a.length ≤ b.length)
          (tbl.map Prod.fst) := hperm.mem_iff.mpr hmem
      rw [hLb] at hmsort
      rcases List.mem_append.mp hmsort with hmL | hmb
      · rw [hLb] at hsorted
        have hrel := (List.pairwise_append.mp hsorted).2.2 m hmL b (List.mem_singleton_self b)
        omega
      · exact hne ((List.mem_singleton.mp hmb).symm)
    refine ⟨L.reverse, ?_⟩
    rw [sortedNames, hLb, hb, List.reverse_append, List.reverse_singleton]
    rfl

/-- A successful dict lookup exhibits a matching binding. -/
theorem lookupD_some_mem {κ β : Type} [BEq κ] {l : List (κ × β)} {k : κ} {v : β}
    (h : lookupD l k = some v) : ∃ p ∈ l, (p.1 == k) = true ∧ p.2 = v := by
  rw [lookupD] at h
  cases hf : l.find? (fun p => p.1 == k) with
  | none => rw [hf] at h; exact Option.noConfusion h
  | some p =>
    rw [hf] at h
    simp only [Option.map_some', Option.some.injEq] at h
    have hmem2 := List.mem_of_find?_eq_some hf
    have hpk := List.find?_some hf
    exact ⟨p, hmem2, hpk, h⟩

/-- Claim C10, amended.  Whenever the three directive passes succeed
and leave a flag macro `m` still bound to the integer sentinel whose
name is strictly longer than every other macro's, and `m`'s name occurs
in some surviving line, `parse` raises `TypeError` during the
macro-substitution pass (the integer sentinel is passed as the
replacement argument of `str.replace`).  The claim as stated — for any
occurrence of the flag macro's name in a surviving line — fails, because
a longer macro substituted earlier can consume the occurrence, as the
counterexample shows; the hypotheses here are what that counterexample
forces. -/
theorem C10_flag_macro_substitution_raises (fs : FileSys) (paths : List Line)
    (tbl tbl1 : MacroTable)
    (text contents : List Line) (m : Line)
    (hdp : directivePasses fs paths tbl text = Except.ok (tbl1, contents))
    (hm : lookupD tbl1 m = some MacroVal.intOne)
    (hlong : ∀ p ∈ tbl1, p.1 ≠ m → p.1.length < m.length)
    (hocc : ∃ l ∈ contents, containsSub m l = true) :
    parse fs paths tbl text = Except.error PErr.typeError := by
  have hmem : m ∈ tbl1.map Prod.fst := by
    obtain ⟨p, hp, hpk, _⟩ := lookupD_some_mem hm
    exact List.mem_map.mpr ⟨p, hp, eq_of_beq hpk⟩
  have hlongk : ∀ k ∈ tbl1.map Prod.fst, k ≠ m → k.length < m.length := by
    intro k hk hne
    obtain ⟨p, hp, rfl⟩ := List.mem_map.mp hk
    exact hlong p hp hne
  obtain ⟨rest, hnames⟩ := sortedNames_strictly_longest_first tbl1 m hmem hlongk
  rw [parse, hdp]
  show applyMacros tbl1 contents = Except.error PErr.typeError
  rw [applyMacros, hnames]
  exact mapM_applyLine_err tbl1 m rest hm contents hocc

/-- Claim C10, counterexample.  The preprocessor `tblC10` holds the flag
macro `AB` (stored integer sentinel) and the longer string macro `ABC`;
the directive passes leave the line `ABC` untouched, so `AB` occurs in a
surviving non-directive line, yet `parse` returns successfully (the
earlier `ABC` substitution consumed the occurrence), refuting the claim
as stated. -/
theorem C10_masked_flag_macro_no_error :
    lookupD tblC10 (S "AB") = some MacroVal.intOne ∧
    directivePasses noFs [] tblC10 [S "ABC"] = Except.ok (tblC10, [S "ABC"]) ∧
    containsSub (S "AB") (S "ABC") = true ∧
    parse noFs [] tblC10 [S "ABC"] = Except.ok [S "x"] :=
  ⟨rfl, rfl, rfl, rfl⟩

/-- Witness for claim C10's amended theorem: a single flag macro `M`
and the line `M x`. -/
theorem C10_flag_macro_witness :
    parse noFs [] tblC10w [S "M x"] = Except.error PErr.typeError :=
  C10_flag_macro_substitution_raises noFs [] tblC10w tblC10w [S "M x"] [S "M x"]
    (S "M") rfl rfl (by decide) ⟨S "M x", by decide, by decide⟩

end C10Development
section C8Development

open FortranPreprocessor

/-- One scan step agrees with the reference depth automaton: it raises
exactly when the automaton underflows, and otherwise its stack depth
tracks the automaton's depth while `Nif = Nendif + depth` is preserved. -/
theorem scanLine_spec (i : Nat) (l : Line) (st : ScanSt)
    (hinv : st.nif = st.nendif + st.active.length) :
    match scanLine i l st with
    | .error _ => stepDepth st.active.length (lineFlags l) = none
    | .ok st1 => stepDepth st.active.length (lineFlags l) = some st1.active.length ∧
        st1.nif = st1.nendif + st1.active.length := by
  by_cases ho : lineOpens l <;> by_cases he : lineElse l <;> by_cases hc : lineEndif l <;>
    simp only [scanLine, lineFlags, stepDepth, ho, he, hc, if_true, if_false,
      Bool.true_and, Bool.false_and, Bool.and_true, Bool.and_false,
      Bool.false_eq_true, Bool.true_eq_false, List.getLast?_concat]
  all_goals try simp only [List.dropLast_concat, List.length_append, List.length_singleton,
    List.length_dropLast, beq_iff_eq, Nat.succ_ne_zero, reduceIte, if_false,
    Nat.add_sub_cancel]
  all_goals try exact ⟨trivial, by omega⟩
  all_goals (
    cases hg : st.active.getLast? with
    | none =>
      have hnil : st.active = [] := List.getLast?_eq_none_iff.mp hg
      simp [hnil]
    | some idx =>
      have hlen : st.active.length ≠ 0 := by
        intro h0
        rw [List.eq_nil_of_length_eq_zero h0] at hg
        exact Option.noConfusion hg
      simp only [hg, hlen, reduceIte, if_false, List.length_dropLast]
      refine ⟨?_, ?_⟩
      · trivial
      · omega)

/-- The whole scan loop agrees with the reference depth automaton. -/
theorem scanAux_spec : ∀ (lines : List Line) (i : Nat) (st : ScanSt)
    (_ : st.nif = st.nendif + st.active.length),
    match scanAux i st lines with
    | .error _ => depthRun st.active.length (lines.map lineFlags) = none
    | .ok st1 => depthRun st.active.length (lines.map lineFlags) = some st1.active.length ∧
        st1.nif = st1.nendif + st1.active.length := by
  intro lines
  induction lines with
  | nil =>
    intro i st hinv
    simp only [scanAux, List.map_nil, depthRun]
    exact ⟨trivial, hinv⟩
  | cons l rest ih =>
    intro i st hinv
    have hline := scanLine_spec i l st hinv
    rw [scanAux]
    cases hsl : scanLine i l st with
    | error e =>
      rw [hsl] at hline
      simp only [List.map_cons, depthRun, hline]
    | ok st1 =>
      rw [hsl] at hline
      obtain ⟨hstep, hinv1⟩ := hline
      have hrest := ih (i + 1) st1 hinv1
      simp only [List.map_cons, depthRun, hstep]
      exact hrest

/-- Claim C8.  The scan phase of conditional resolution succeeds exactly
on balanced, well-nested directive input: an `#else`/`#endif` with no
open block raises at that line, a mismatch between the number of
block-opening directives and `#endif`s raises the final structural
error (if the counts differ, the automaton cannot both avoid underflow
and end at depth zero, since `Nif - Nendif` equals the final depth), and
balanced input raises neither.  A scan failure propagates to
`_parse_if_directives` as a fatal exception. -/
theorem C8_scan_ok_iff_balanced (tbl : MacroTable) (text : List Line) :
    isOkE (scanIfBlocks text) = balancedDirectives text ∧
    (balancedDirectives text = false →
      ∃ e, parseIfDirectives tbl text = Except.error e) := by
  have hspec := scanAux_spec text 0 ⟨[], [], 0, 0⟩ rfl
  have hmain : isOkE (scanIfBlocks text) = balancedDirectives text := by
    rw [scanIfBlocks, balancedDirectives]
    cases hsa : scanAux 0 ⟨[], [], 0, 0⟩ text with
    | error e =>
      rw [hsa] at hspec
      simp only [List.length_nil] at hspec
      rw [hspec]
      rfl
    | ok st1 =>
      rw [hsa] at hspec
      obtain ⟨hdep, hinv⟩ := hspec
      simp only [List.length_nil] at hdep
      rw [hdep]
      by_cases hz : st1.active.length = 0
      · have hnn : st1.nif = st1.nendif := by omega
        simp [hz, hnn, isOkE]
      · have hnn : st1.nif ≠ st1.nendif := by omega
        have hbeq : (st1.nif == st1.nendif) = false := by
          exact beq_eq_false_iff_ne.mpr hnn
        simp [hbeq, isOkE, hz]
  refine ⟨hmain, fun hbal => ?_⟩
  have hscan : isOkE (scanIfBlocks text) = false := by rw [hmain, hbal]
  cases hs : scanIfBlocks text with
  | error e =>
    refine ⟨e, ?_⟩
    rw [parseIfDirectives, hs]
  | ok st =>
    rw [hs] at hscan
    exact absurd hscan (by simp [isOkE])

/-- Witness for claim C8's propagation part, at a lone `#endif` (an
`#endif` with no open block) and an empty macro table. -/
theorem C8_scan_witness :
    balancedDirectives [S "#endif"] = false ∧
    ∃ e, parseIfDirectives [] [S "#endif"] = Except.error e :=
  ⟨by decide, (C8_scan_ok_iff_balanced [] [S "#endif"]).2 (by decide)⟩

end C8Development

section C9Development

open FortranProject

/-- Looking up the key just written into a dict finds the new value. -/
theorem dictSet_lookup_self [BEq κ] [LawfulBEq κ] (d : List (κ × β)) (k : κ) (v : β) :
    lookupD (dictSet d k v) k = some v := by
  induction d with
  | nil => simp [dictSet, lookupD]
  | cons p r ih =>
    by_cases h : p.1 == k
    · obtain ⟨k1, v1⟩ := p
      simp only at h
      simp [dictSet, h, lookupD, List.find?]
    · obtain ⟨k1, v1⟩ := p
      simp only at h
      simp only [dictSet, h, Bool.false_eq_true, if_false]
      simp only [lookupD, List.find?, h]
      exact ih

/-- Writing one key of a dict does not disturb lookups of another. -/
theorem lookupD_dictSet_ne [BEq κ] [LawfulBEq κ] (d : List (κ × β)) (k1 k : κ) (v : β)
    (hne : k1 ≠ k) : lookupD (dictSet d k1 v) k = lookupD d k := by
  induction d with
  | nil =>
    simp only [dictSet, lookupD, List.find?]
    have : (k1 == k) = false := beq_eq_false_iff_ne.mpr hne
    simp [this]
  | cons p r ih =>
    obtain ⟨kp, vp⟩ := p
    by_cases h : kp == k1
    · have hkp : kp = k1 := eq_of_beq h
      subst hkp
      have hkk : (kp == k) = false := beq_eq_false_iff_ne.mpr hne
      simp [dictSet, lookupD, List.find?, hkk]
    · simp only [dictSet, h, Bool.false_eq_true, if_false]
      simp only [lookupD, List.find?] at ih ⊢
      cases hk : (kp == k) with
      | true => simp [hk]
      | false => simp only [hk]; exact ih

/-- A binding of an updated dict is the written one or an old one. -/
theorem mem_dictSet [BEq κ] [LawfulBEq κ] (d : List (κ × β)) (k : κ) (v : β) (p : κ × β)
    (hp : p ∈ dictSet d k v) : p.1 = k ∨ p ∈ d := by
  induction d with
  | nil =>
    simp only [dictSet] at hp
    rcases List.mem_singleton.mp hp with rfl
    exact Or.inl rfl
  | cons q r ih =>
    obtain ⟨kq, vq⟩ := q
    by_cases h : kq == k
    · simp only [dictSet, h, if_true] at hp
      rcases List.mem_cons.mp hp with rfl | hr
      · exact Or.inl (eq_of_beq h)
      · exact Or.inr (List.mem_cons_of_mem _ hr)
    · simp only [dictSet, h, Bool.false_eq_true, if_false] at hp
      rcases List.mem_cons.mp hp with rfl | hr
      · exact Or.inr (List.mem_cons_self _ _)
      · rcases ih hr with h1 | h2
        · exact Or.inl h1
        · exact Or.inr (List.mem_cons_of_mem _ h2)

/-- When the match is unique, `find?` returns it from any position. -/
theorem find?_unique {α : Type} (p : α → Bool) :
    ∀ (l : List α) (a : α), a ∈ l → p a = true →
      (∀ b ∈ l, p b = true → b = a) → l.find? p = some a := by
  intro l
  induction l with
  | nil => intro a ha _ _; exact absurd ha (List.not_mem_nil a)
  | cons x xs ih =>
    intro a ha hpa huniq
    by_cases hx : p x = true
    · have hxa : x = a := huniq x (List.mem_cons_self x xs) hx
      rw [List.find?_cons_of_pos _ hx, hxa]
    · have hax : a ∈ xs := by
        rcases List.mem_cons.mp ha with rfl | h
        · exact absurd hpa hx
        · exact h
      rw [List.find?_cons_of_neg _ hx]
      exact ih a hax hpa (fun b hb hpb => huniq b (List.mem_cons_of_mem x hb) hpb)

/-- A list whose image is duplicate-free maps equal images to equal
members. -/
theorem nodup_map_mem_inj {α β : Type} (f : α → β) :
    ∀ (l : List α), (l.map f).Nodup →
      ∀ a ∈ l, ∀ b ∈ l, f a = f b → a = b := by
  intro l
  induction l with
  | nil => intro _ a ha; exact absurd ha (List.not_mem_nil a)
  | cons x xs ih =>
    intro hnd a ha b hb hf
    rw [List.map_cons, List.nodup_cons] at hnd
    rcases List.mem_cons.mp ha with rfl | ha2 <;> rcases List.mem_cons.mp hb with rfl | hb2
    · rfl
    · exact absurd (hf ▸ List.mem_map_of_mem f hb2) hnd.1
    · exact absurd (hf ▸ List.mem_map_of_mem f ha2) hnd.1
    · exact ih hnd.2 a ha2 b hb2 hf

/-- Dict lookup over keys without duplicates is stable under
permutation of the bindings. -/
theorem lookupD_perm {β : Type} (d d' : List (String × β)) (hperm : List.Perm d d')
    (hnd : (d.map Prod.fst).Nodup) (k : String) : lookupD d k = lookupD d' k := by
  cases hfind : d.find? (fun p => p.1 == k) with
  | none =>
    have hall := List.find?_eq_none.mp hfind
    have : d'.find? (fun p => p.1 == k) = none :=
      List.find?_eq_none.mpr (fun p hp => hall p (hperm.mem_iff.mpr hp))
    rw [lookupD, lookupD, hfind, this]
  | some p =>
    have hp : p ∈ d := List.mem_of_find?_eq_some hfind
    have hpk := List.find?_some hfind
    have huniq : ∀ q ∈ d, (q.1 == k) = true → q = p := by
      intro q hq hqk
      exact nodup_map_mem_inj Prod.fst d hnd q hq p hp
        (by rw [eq_of_beq hqk, eq_of_beq hpk])
    have hfind2 : d'.find? (fun p => p.1 == k) = some p :=
      find?_unique _ d' p (hperm.mem_iff.mp hp) hpk
        (fun b hb hpb => huniq b (hperm.mem_iff.mpr hb) hpb)
    rw [lookupD, lookupD, hfind, hfind2]

/-- Writing a fresh key appends it to the key list. -/
theorem keys_dictSet_fresh {β : Type} (d : List (String × β)) (k : String) (v : β)
    (hfresh : ∀ p ∈ d, p.1 ≠ k) :
    (dictSet d k v).map Prod.fst = d.map Prod.fst ++ [k] := by
  induction d with
  | nil => rfl
  | cons q r ih =>
    obtain ⟨kq, vq⟩ := q
    have hne : kq ≠ k := hfresh (kq, vq) (List.mem_cons_self _ _)
    have hbeq : (kq == k) = false := beq_eq_false_iff_ne.mpr hne
    simp only [dictSet, hbeq, Bool.false_eq_true, if_false, List.map_cons, List.cons_append,
      List.cons.injEq, true_and]
    exact ih (fun p hp => hfresh p (List.mem_cons_of_mem _ hp))

/-- A fold of dict writes under other keys preserves a lookup. -/
theorem lookup_fold_preserve {β : Type} (V : FMod → β) :
    ∀ (ms : List FMod) (d0 : List (String × β)) (k : String),
      (∀ mm ∈ ms, mm.name ≠ k) →
      lookupD (ms.foldl (fun d mm => dictSet d mm.name (V mm)) d0) k = lookupD d0 k := by
  intro ms
  induction ms with
  | nil => intro d0 k _; rfl
  | cons mm ms' ih =>
    intro d0 k hk
    rw [List.foldl_cons]
    rw [ih (dictSet d0 mm.name (V mm)) k (fun q hq => hk q (List.mem_cons_of_mem _ hq))]
    exact lookupD_dictSet_ne d0 mm.name k (V mm) (hk mm (List.mem_cons_self _ _))

/-- In the dict built by one write per unit, each unit's key maps to
its own value (given globally duplicate-free keys). -/
theorem lookup_fold_dictSet {β : Type} (V : FMod → β) :
    ∀ (ms : List FMod) (d0 : List (String × β)) (m : FMod),
      m ∈ ms → ((d0.map Prod.fst) ++ ms.map FMod.name).Nodup →
      lookupD (ms.foldl (fun d mm => dictSet d mm.name (V mm)) d0) m.name = some (V m) := by
  intro ms
  induction ms with
  | nil => intro d0 m hm; exact absurd hm (List.not_mem_nil m)
  | cons mm ms' ih =>
    intro d0 m hm hnd
    rw [List.foldl_cons]
    have hdisj := List.disjoint_of_nodup_append hnd
    rcases List.mem_cons.mp hm with rfl | hm2
    · have hnotin : ∀ q ∈ ms', q.name ≠ m.name := by
        intro q hq
        have hnames : (m.name :: ms'.map FMod.name).Nodup :=
          (List.nodup_append.mp hnd).2.1
        intro heq
        exact (List.nodup_cons.mp hnames).1 (heq ▸ List.mem_map_of_mem FMod.name hq)
      rw [lookup_fold_preserve V ms' _ m.name hnotin]
      exact dictSet_lookup_self d0 m.name (V m)
    · have hfresh : ∀ p ∈ d0, p.1 ≠ mm.name := by
        intro p hp heq
        exact hdisj (List.mem_map_of_mem Prod.fst hp)
          (heq ▸ List.mem_cons_self mm.name (ms'.map FMod.name)) 
      apply ih (dictSet d0 mm.name (V mm)) m hm2
      rw [keys_dictSet_fresh d0 mm.name (V mm) hfresh]
      have : d0.map Prod.fst ++ mm.name :: ms'.map FMod.name =
          (d0.map Prod.fst ++ [mm.name]) ++ ms'.map FMod.name := by
        rw [List.append_assoc, List.singleton_append]
      rw [List.map_cons] at hnd
      rw [this] at hnd
      exact hnd

/-- A dict write preserves duplicate-freeness of the key list. -/
theorem dictSet_keys_nodup {β : Type} (d : List (String × β)) (k : String) (v : β)
    (hnd : (d.map Prod.fst).Nodup) : ((dictSet d k v).map Prod.fst).Nodup := by
  induction d with
  | nil => simp [dictSet]
  | cons q r ih =>
    obtain ⟨kq, vq⟩ := q
    rw [List.map_cons, List.nodup_cons] at hnd
    by_cases h : (kq == k) = true
    · have hk : kq = k := eq_of_beq h
      subst hk
      simp only [dictSet, beq_self_eq_true, if_true, List.map_cons, List.nodup_cons]
      exact hnd
    · have hne : kq ≠ k := by
        intro heq
        rw [heq] at h
        exact h (beq_self_eq_true k)
      simp only [dictSet, h, Bool.false_eq_true, if_false, List.map_cons, List.nodup_cons]
      refine ⟨?_, ih hnd.2⟩
      intro hmem
      rcases List.mem_map.mp hmem with ⟨p, hp, hpk⟩
      rcases mem_dictSet r k v p hp with h1 | h2
      · exact hne (by rw [← hpk, h1])
      · exact hnd.1 (List.mem_map.mpr ⟨p, h2, hpk⟩)

/-- So does any fold of dict writes. -/
theorem fold_dictSet_keys_nodup {β : Type} (V : FMod → β) :
    ∀ (ms : List FMod) (d0 : List (String × β)),
      (d0.map Prod.fst).Nodup →
      ((ms.foldl (fun d mm => dictSet d mm.name (V mm)) d0).map Prod.fst).Nodup := by
  intro ms
  induction ms with
  | nil => intro d0 h; exact h
  | cons mm ms' ih =>
    intro d0 h
    rw [List.foldl_cons]
    exact ih _ (dictSet_keys_nodup d0 mm.name (V mm) h)

/-- The per-unit resolution loop collects exactly the resolvable units
in order, and its flag records whether every name resolved. -/
theorem resolveGraph_spec (mods : List FMod) :
    ∀ (uses : List String) (g0 : List FMod) (ok0 : Bool),
      resolveGraph mods uses (g0, ok0) =
        (g0 ++ uses.filterMap (lookupMod mods),
         ok0 && uses.all (fun u => (lookupMod mods u).isSome)) := by
  intro uses
  induction uses with
  | nil => intro g0 ok0; simp [resolveGraph]
  | cons u us ih =>
    intro g0 ok0
    rw [resolveGraph, List.foldl_cons]
    cases hu : lookupMod mods u with
    | none =>
      show resolveGraph mods us (g0, false) = _
      rw [ih g0 false]
      simp [List.filterMap_cons, hu]
    | some md =>
      show resolveGraph mods us (g0 ++ [md], ok0) = _
      rw [ih (g0 ++ [md]) ok0]
      simp [List.filterMap_cons, hu]

/-- The loop over all units builds one dict entry per unit and ands the
per-unit resolvability flags onto the incoming success flag. -/
theorem outer_fold_spec (mods : List FMod) :
    ∀ (ms : List FMod) (d0 : List (String × List FMod)) (ok0 : Bool),
      ms.foldl (dependsStep mods) (d0, ok0) =
        (ms.foldl (fun d mm => dictSet d mm.name
            (List.insertionSort (fun a b : FMod => a.filename ≤ b.filename)
              (mm.uses.filterMap (lookupMod mods)))) d0,
         ok0 && ms.all (fun mm => mm.uses.all (fun u => (lookupMod mods u).isSome))) := by
  intro ms
  induction ms with
  | nil => intro d0 ok0; simp
  | cons mm ms' ih =>
    intro d0 ok0
    rw [List.foldl_cons, List.foldl_cons]
    have hstep : dependsStep mods (d0, ok0) mm =
        (dictSet d0 mm.name
          (List.insertionSort (fun a b : FMod => a.filename ≤ b.filename)
            (mm.uses.filterMap (lookupMod mods))),
         ok0 && mm.uses.all (fun u => (lookupMod mods u).isSome)) := by
      rw [dependsStep, resolveGraph_spec mods mm.uses [] ok0]
      rfl
    rw [hstep, ih]
    rw [List.all_cons, Bool.and_assoc]

/-- Claim C9.  For every project registry with case-normalized unique
unit names: every unit receives a dependency list (processing always
continues; the embedded function is total, mirroring the caught
`KeyError`); that list is exactly the resolvable uses, Python-sorted by
the defining file's path (hence pairwise ordered by filename); each
entry is a registry unit; a use that resolves to no registry unit
contributes no entry bearing its name; and if any unit has any
unresolvable use the project success flag ends up `false`. -/
theorem C9_depends_by_module_resolution (mods : List FMod)
    (hnd : (mods.map FMod.name).Nodup) :
    (∀ m ∈ mods, ∃ l, lookupD (getDependsByModule mods true).1 m.name = some l ∧
        l = List.insertionSort (fun a b : FMod => a.filename ≤ b.filename)
          (m.uses.filterMap (lookupMod mods)) ∧
        List.Pairwise (fun a b : FMod => a.filename ≤ b.filename) l ∧
        (∀ d ∈ l, d ∈ mods) ∧
        (∀ u ∈ m.uses, lookupMod mods u = none → ∀ d ∈ l, d.name ≠ u)) ∧
    ((∃ m ∈ mods, ∃ u ∈ m.uses, lookupMod mods u = none) →
      (getDependsByModule mods true).2 = false) := by
  haveI htot : IsTotal FMod (fun a b : FMod => a.filename ≤ b.filename) :=
    ⟨fun a b => le_total a.filename b.filename⟩
  haveI htrans : IsTrans FMod (fun a b : FMod => a.filename ≤ b.filename) :=
    ⟨fun _ _ _ hab hbc => le_trans hab hbc⟩
  have hfold := outer_fold_spec mods mods [] true
  have hr : getDependsByModule mods true =
      (List.insertionSort (fun a b : String × List FMod => a.2.length ≤ b.2.length)
        (mods.foldl (fun d mm => dictSet d mm.name
          (List.insertionSort (fun a b : FMod => a.filename ≤ b.filename)
            (mm.uses.filterMap (lookupMod mods)))) []),
       true && mods.all (fun mm => mm.uses.all (fun u => (lookupMod mods u).isSome))) := by
    rw [getDependsByModule, hfold]
  have hkeys0 : ((mods.foldl (fun d mm => dictSet d mm.name
      (List.insertionSort (fun a b : FMod => a.filename ≤ b.filename)
        (mm.uses.filterMap (lookupMod mods)))) []).map Prod.fst).Nodup :=
    fold_dictSet_keys_nodup _ mods [] (by simp)
  constructor
  · intro m hm
    refine ⟨List.insertionSort (fun a b : FMod => a.filename ≤ b.filename)
      (m.uses.filterMap (lookupMod mods)), ?_, rfl, ?_, ?_, ?_⟩
    · rw [hr]
      have hperm := List.perm_insertionSort
        (fun a b : String × List FMod => a.2.length ≤ b.2.length)
        (mods.foldl (fun d mm => dictSet d mm.name
          (List.insertionSort (fun a b : FMod => a.filename ≤ b.filename)
            (mm.uses.filterMap (lookupMod mods)))) [])
      rw [← lookupD_perm _ _ hperm.symm hkeys0 m.name]
      exact lookup_fold_dictSet _ mods [] m hm (by simpa using hnd)
    · exact List.sorted_insertionSort _ _
    · intro d hd
      have hd2 : d ∈ m.uses.filterMap (lookupMod mods) :=
        (List.perm_insertionSort _ _).mem_iff.mp hd
      obtain ⟨u, _, hres⟩ := List.mem_filterMap.mp hd2
      exact List.mem_of_find?_eq_some hres
    · intro u _ hnone d hd heq
      have hd2 : d ∈ m.uses.filterMap (lookupMod mods) :=
        (List.perm_insertionSort _ _).mem_iff.mp hd
      obtain ⟨u2, _, hres⟩ := List.mem_filterMap.mp hd2
      have hdm : d ∈ mods := List.mem_of_find?_eq_some hres
      have := List.find?_eq_none.mp hnone d hdm
      rw [heq] at this
      exact this (beq_self_eq_true u)
  · rintro ⟨m, hm, u, hu, hun⟩
    rw [hr]
    have hall : mods.all (fun mm => mm.uses.all (fun u => (lookupMod mods u).isSome)) =
        false := by
      rw [List.all_eq_false]
      refine ⟨m, hm, ?_⟩
      rw [Bool.not_eq_true, List.all_eq_false]
      exact ⟨u, hu, by rw [hun]; simp⟩
    rw [hall]
    rfl

/-- Witness for claim C9 at the registry `modsC9`, whose unit `b` uses
the unresolvable name `nope`. -/
theorem C9_depends_witness :
    ((modsC9.map FMod.name).Nodup) ∧
    ((∀ m ∈ modsC9, ∃ l, lookupD (getDependsByModule modsC9 true).1 m.name = some l ∧
        l = List.insertionSort (fun a b : FMod => a.filename ≤ b.filename)
          (m.uses.filterMap (lookupMod modsC9)) ∧
        List.Pairwise (fun a b : FMod => a.filename ≤ b.filename) l ∧
        (∀ d ∈ l, d ∈ modsC9) ∧
        (∀ u ∈ m.uses, lookupMod modsC9 u = none → ∀ d ∈ l, d.name ≠ u)) ∧
    ((∃ m ∈ modsC9, ∃ u ∈ m.uses, lookupMod modsC9 u = none) →
      (getDependsByModule modsC9 true).2 = false)) :=
  ⟨by decide, C9_depends_by_module_resolution modsC9 (by decide)⟩

end C9Development
